import Mathlib

/-!
Shallow embedding of the errtags Go package (tag-based classification of
errors).  Heap-allocated tags are modelled as indices into an allocation
list (`Heap`); the Go pointer order used by the canonical sort coincides
with allocation order, as endorsed by the design notes of the spec
(creation sequence numbers in place of raw addresses).
-/

/-- A tag pointer: the index of the tag in the allocation list. -/
abbrev TagId := Nat

/-- External error values: either a plain error carrying only a message
(for example one produced by errors.New), or a pointer to an allocated Tag. -/
inductive Err where
  | base (msg : String)
  | tag (id : TagId)
deriving DecidableEq

/-- The Tag struct of the source, fields causer, msg, tags, msgOverride. -/
structure Tag where
  causer : Option Err
  msg : String
  tags : List TagId
  msgOverride : Bool
deriving DecidableEq

/-- The Go zero value of the Tag struct. -/
instance : Inhabited Tag := ⟨⟨none, "", [], false⟩⟩

/-- The allocation list: tag number t lives at index t. -/
abbrev Heap := List Tag

/-- Dereference a tag pointer.  An index beyond the allocations yields the
zero Tag, whose tags field is empty. -/
def tagRec (h : Heap) (t : TagId) : Tag := h.getD t default

/-- The loop body of getAllTags from the source: iterate the input list,
skip tags already in the seen set, otherwise emit the tag, descend (via
child, the recursive call one level deeper) into its tags field, and thread
the seen set through the remaining iterations.  Returns the collected tags
and the final seen set. -/
def dfsList (h : Heap) (child : List TagId → List TagId → List TagId × List TagId) :
    List TagId → List TagId → List TagId × List TagId
  | [], seen => ([], seen)
  | t :: rest, seen =>
    if t ∈ seen then dfsList h child rest seen
    else
      let c := child (tagRec h t).tags (t :: seen)
      let r := dfsList h child rest c.2
      (t :: (c.1 ++ r.1), r.2)

/-- getAllTags from the source, recursively extracting tags from tags.  The
Go original terminates because the seen set grows before every nested call;
here the nesting depth is bounded by a fuel argument, and fuel equal to the
heap size plus one is always enough (see the closure lemmas below). -/
def getAllTags (h : Heap) : Nat → List TagId → List TagId → List TagId × List TagId
  | 0, _, seen => ([], seen)
  | fuel + 1, tags, seen => dfsList h (getAllTags h fuel) tags seen

/-- uniq from the source: drop duplicates, keeping first occurrences.  The
seen set is the accumulator list. -/
def uniqAux (seen : List TagId) : List TagId → List TagId
  | [] => []
  | t :: rest => if t ∈ seen then uniqAux seen rest else t :: uniqAux (t :: seen) rest

/-- uniq from the source. -/
def uniq (tags : List TagId) : List TagId := uniqAux [] tags

/-- sort from the source: recursively extract tags from tags, remove
duplicates, and sort by pointer value.  Ascending insertion sort on the
allocation index models SortFunc with the pointer difference comparator;
the input to the final sort has no duplicates, so any correct sorting
algorithm gives the same list. -/
def sort (h : Heap) (tags : List TagId) : List TagId :=
  List.insertionSort (· ≤ ·) (uniq (getAllTags h (h.length + 1) tags []).1)

/-- isSubSlice from the source.  none models the index-out-of-range runtime
failure on sliceB[0] when the pattern slice is empty (the guard for that
case is commented out in the source).  The window comparison
sliceA[i:i+len(sliceB)] is modelled with take, which truncates; a truncated
window has the wrong length and compares unequal, matching the defensive
revision of the helper and the Go behaviour when the backing array of
sliceA extends past its length with zero entries. -/
def subSliceFrom (b : List TagId) (first : TagId) : List TagId → Bool
  | [] => false
  | a0 :: rest =>
    if a0 = first then decide ((a0 :: rest).take b.length = b)
    else subSliceFrom b first rest

/-- isSubSlice from the source (see subSliceFrom for the window model). -/
def isSubSlice (sliceA sliceB : List TagId) : Option Bool :=
  match sliceB with
  | [] => none
  | first :: _ =>
    if sliceB.length > sliceA.length then some false
    else some (subSliceFrom sliceB first sliceA)

/-- message from the source: an explicit message is returned verbatim,
otherwise the messages of the members are concatenated.  The loop writes a
member message only when it is nonempty, and writes the separator after it
whenever the member is not at the last index. -/
def msgConcat (h : Heap) : List TagId → String
  | [] => ""
  | [t] => (tagRec h t).msg
  | t :: rest =>
    (if (tagRec h t).msg ≠ "" then (tagRec h t).msg ++ ": " else "") ++ msgConcat h rest

/-- message from the source. -/
def Tag.message (h : Heap) (e : Tag) : String :=
  if e.msgOverride then e.msg else msgConcat h e.tags

/-- The Tag method of the Tag struct from the source (renamed here because
the method shares its name with its receiver type): wrap an error.  The Go
struct literal sets causer, msg and tags and omits msgOverride, which
therefore takes the zero value false. -/
def tagWrap (e : Tag) (err : Option Err) : Option Tag :=
  match err with
  | none => none
  | some c => some { causer := some c, msg := e.msg, tags := e.tags, msgOverride := false }

/-- TagWithMessage from the source. -/
def Tag.TagWithMessage (e : Tag) (err : Option Err) (m : String) : Option Tag :=
  match err with
  | none => none
  | some c => some { causer := some c, msg := m, tags := e.tags, msgOverride := true }

/-- The Is hook from the source, in the case where the candidate is itself
a Tag (the type assertion succeeded); a non-Tag candidate returns false in
the source and is not modelled. -/
def Tag.Is (e other : Tag) : Option Bool := isSubSlice e.tags other.tags

/-- Include from the source: replace the tags field of the addressed tag
with the sorted extension and return the same pointer (here: the updated
heap; the identity of the tag, its index, is unchanged). -/
def Tag.Include (h : Heap) (i : TagId) (tags : List TagId) : Heap :=
  h.set i { tagRec h i with tags := sort h ((tagRec h i).tags ++ tags) }

/-- NewTag from the source: allocate a fresh tag whose tags field is the
one-element list holding the tag itself, and whose message joins the
optional message arguments. -/
def NewTag (h : Heap) (msg : List String) : Heap × TagId :=
  let m := if msg.length > 0 then String.intercalate ": " msg else ""
  (h ++ [{ causer := none, msg := m, tags := [h.length], msgOverride := false }], h.length)

/-- WithTags from the source. -/
def WithTags (h : Heap) (err : Option Err) (tags : List TagId) : Option Tag :=
  match err with
  | none => none
  | some c => some { causer := some c, msg := "", tags := sort h tags, msgOverride := false }

/-- UnionTag from the source: the first argument is the mandatory first tag,
the rest are appended before it, exactly as append(tags, tag). -/
def UnionTag (h : Heap) (tag : TagId) (tags : List TagId) : Tag :=
  { causer := none, msg := "", tags := sort h (tags ++ [tag]), msgOverride := false }

/-- Error of an external error value: a base error renders its message; a
tag pointer renders as the Error method of the addressed Tag.  Fuel bounds
the cause-chain depth. -/
def errError (h : Heap) : Nat → Err → String
  | _, .base m => m
  | 0, .tag _ => ""
  | fuel + 1, .tag i =>
    let e := tagRec h i
    let own := Tag.message h e
    match e.causer with
    | none => own
    | some c => own ++ ": " ++ errError h fuel c

/-- The Error method from the source: the own message, and when a cause is
present, the separator and the rendered cause, with no emptiness check on
the own message. -/
def Tag.Error (h : Heap) (fuel : Nat) (e : Tag) : String :=
  let own := Tag.message h e
  match e.causer with
  | none => own
  | some c => own ++ ": " ++ errError h fuel c

/-- Cause from the source. -/
def Tag.Cause (e : Tag) : Option Err := e.causer

/-- Unwrap from the source. -/
def Tag.Unwrap (e : Tag) : Option Err := e.causer

/-- One unwrapping step on an external error value: a base error has no
cause, a tag pointer unwraps to the causer of the addressed Tag. -/
def unwrapErr (h : Heap) : Err → Option Err
  | .base _ => none
  | .tag i => Tag.Unwrap (tagRec h i)

/-- Repeated unwrapping: n steps of unwrapErr, innermost last. -/
def iterUnwrap (h : Heap) : Nat → Err → Option Err
  | 0, e => some e
  | n + 1, e => (iterUnwrap h n e).bind (unwrapErr h)

/-- Wrap an error in successive tag layers, allocating each produced tagged
error on the heap so the next layer can point at it; the chain construction
used by the cause-preservation claim. -/
def wrapChain (h : Heap) (err : Err) : List TagId → Heap × Err
  | [] => (h, err)
  | t :: rest =>
    match tagWrap (tagRec h t) (some err) with
    | some w => wrapChain (h ++ [w]) (Err.tag h.length) rest
    | none => (h, err)

/-- Modelled from the spec: the derived message the spec describes, the
member messages that are nonempty, joined by the separator.  Used only to
compare the message algorithm of the source against the words of the spec. -/
def joinSep : List String → String
  | [] => ""
  | [m] => m
  | m :: rest => m ++ ": " ++ joinSep rest

/-- Reachability along the tags fields, starting from a root list and
avoiding the seen set: exactly the set of tags the traversal of getAllTags
collects (proved below). -/
inductive RA (h : Heap) (seen : List TagId) : List TagId → TagId → Prop
  | root {l : List TagId} {t : TagId} : t ∈ l → t ∉ seen → RA h seen l t
  | child {l : List TagId} {t u : TagId} :
      RA h seen l t → u ∈ (tagRec h t).tags → u ∉ seen → RA h seen l u

/-- The number of allocated tags not yet in the seen set; bounds the
recursion depth getAllTags still needs. -/
def realCount (h : Heap) (seen : List TagId) : Nat :=
  ((Finset.range h.length).filter (fun x => x ∉ seen)).card

/-- Heap after NewTag(msg: a). -/
def hA : Heap := (NewTag [] ["a"]).1

/-- Heap after NewTag(a), NewTag(b). -/
def hAB : Heap := (NewTag hA ["b"]).1

/-- Heap after NewTag(a), NewTag(b), NewTag(c). -/
def hABC : Heap := (NewTag hAB ["c"]).1

/-- Heap after NewTag(a), NewTag(b), NewTag(c) and the allocation of
UnionTag(a, b), whose members are the sorted pair of the two atomic tags. -/
def hABCU : Heap := hABC ++ [UnionTag hABC 0 [1]]

/-- Heap after NewTag(a) and a NewTag() with no message. -/
def hAE : Heap := (NewTag hA []).1

/-- Heap after NewTag(x), NewTag(y). -/
def hXY : Heap := (NewTag (NewTag [] ["x"]).1 ["y"]).1

/-- hXY plus the allocation of UnionTag(x, y). -/
def hXYU : Heap := hXY ++ [UnionTag hXY 0 [1]]

/-- hXYU plus NewTag(b): a composite tag at index 2 and an atomic tag at
index 3. -/
def hXYUB : Heap := (NewTag hXYU ["b"]).1

theorem getAllTags_nil (h : Heap) (fuel : Nat) (seen : List TagId) :
    getAllTags h fuel [] seen = ([], seen) := by
  cases fuel <;> rfl

theorem getAllTags_succ (h : Heap) (fuel : Nat) (l seen : List TagId) :
    getAllTags h (fuel + 1) l seen = dfsList h (getAllTags h fuel) l seen := rfl

theorem dfsList_nil (h : Heap) (child : List TagId → List TagId → List TagId × List TagId)
    (seen : List TagId) : dfsList h child [] seen = ([], seen) := rfl

theorem dfsList_cons_mem (h : Heap) (child : List TagId → List TagId → List TagId × List TagId)
    (t : TagId) (rest seen : List TagId) (ht : t ∈ seen) :
    dfsList h child (t :: rest) seen = dfsList h child rest seen := by
  simp [dfsList, ht]

theorem dfsList_cons_not_mem (h : Heap)
    (child : List TagId → List TagId → List TagId × List TagId)
    (t : TagId) (rest seen : List TagId) (ht : t ∉ seen) :
    dfsList h child (t :: rest) seen =
      (t :: ((child (tagRec h t).tags (t :: seen)).1 ++
        (dfsList h child rest (child (tagRec h t).tags (t :: seen)).2).1),
       (dfsList h child rest (child (tagRec h t).tags (t :: seen)).2).2) := by
  simp [dfsList, ht]

theorem getAllTags_seen_subset (h : Heap) :
    ∀ (fuel : Nat) (l seen : List TagId) (x : TagId),
      x ∈ seen → x ∈ (getAllTags h fuel l seen).2 := by
  intro fuel
  induction fuel with
  | zero => intro l seen x hx; simpa [getAllTags] using hx
  | succ f ih =>
    intro l
    induction l with
    | nil => intro seen x hx; simpa [getAllTags_nil] using hx
    | cons t rest ihl =>
      intro seen x hx
      rw [getAllTags_succ]
      by_cases ht : t ∈ seen
      · rw [dfsList_cons_mem h _ t rest seen ht]
        exact ihl seen x hx
      · rw [dfsList_cons_not_mem h _ t rest seen ht]
        exact ihl _ x (ih _ _ x (List.mem_cons_of_mem _ hx))

theorem getAllTags_mem_seen_iff (h : Heap) :
    ∀ (fuel : Nat) (l seen : List TagId) (x : TagId),
      x ∈ (getAllTags h fuel l seen).2 ↔
        x ∈ seen ∨ x ∈ (getAllTags h fuel l seen).1 := by
  intro fuel
  induction fuel with
  | zero => intro l seen x; simp [getAllTags]
  | succ f ih =>
    intro l
    induction l with
    | nil => intro seen x; simp [getAllTags_nil]
    | cons t rest ihl =>
      intro seen x
      rw [getAllTags_succ]
      by_cases ht : t ∈ seen
      · rw [dfsList_cons_mem h _ t rest seen ht]
        exact ihl seen x
      · rw [dfsList_cons_not_mem h _ t rest seen ht]
        constructor
        · intro hx
          rcases (ihl _ x).1 hx with hc | hr
          · rcases (ih _ _ x).1 hc with hs | ho
            · rcases List.mem_cons.1 hs with rfl | hs
              · exact Or.inr (List.mem_cons_self _ _)
              · exact Or.inl hs
            · exact Or.inr (List.mem_cons_of_mem _ (List.mem_append_left _ ho))
          · exact Or.inr (List.mem_cons_of_mem _ (List.mem_append_right _ hr))
        · intro hx
          rcases hx with hs | ho
          · exact (ihl _ x).2 (Or.inl ((ih _ _ x).2 (Or.inl (List.mem_cons_of_mem _ hs))))
          · rcases List.mem_cons.1 ho with rfl | ho
            · exact (ihl _ x).2
                (Or.inl ((ih _ _ x).2 (Or.inl (List.mem_cons_self _ _))))
            · rcases List.mem_append.1 ho with hc | hr
              · exact (ihl _ x).2 (Or.inl ((ih _ _ x).2 (Or.inr hc)))
              · exact (ihl _ x).2 (Or.inr hr)

theorem RA.not_mem_seen {h : Heap} {seen l : List TagId} {x : TagId}
    (hx : RA h seen l x) : x ∉ seen := by
  cases hx with
  | root _ hs => exact hs
  | child _ _ hs => exact hs

theorem RA.mono_roots {h : Heap} {seen l l' : List TagId} {x : TagId}
    (hl : ∀ y ∈ l, y ∈ l') (hx : RA h seen l x) : RA h seen l' x := by
  induction hx with
  | root hm hs => exact RA.root (hl _ hm) hs
  | child _ hm hs ih => exact RA.child ih hm hs

theorem RA.anti_seen {h : Heap} {seen seen' l : List TagId} {x : TagId}
    (hs : ∀ y ∈ seen, y ∈ seen') (hx : RA h seen' l x) : RA h seen l x := by
  induction hx with
  | root hm hns => exact RA.root hm (fun hc => hns (hs _ hc))
  | child _ hm hns ih => exact RA.child ih hm (fun hc => hns (hs _ hc))

theorem RA.through {h : Heap} {seen l : List TagId} {t x : TagId}
    (hT : RA h seen l t) (hx : RA h (t :: seen) (tagRec h t).tags x) :
    RA h seen l x := by
  induction hx with
  | root hm hs =>
    exact RA.child hT hm (fun hc => hs (List.mem_cons_of_mem _ hc))
  | child _ hm hs ih =>
    exact RA.child ih hm (fun hc => hs (List.mem_cons_of_mem _ hc))

theorem getAllTags_sound (h : Heap) :
    ∀ (fuel : Nat) (l seen : List TagId) (x : TagId),
      x ∈ (getAllTags h fuel l seen).1 → RA h seen l x := by
  intro fuel
  induction fuel with
  | zero => intro l seen x hx; simp [getAllTags] at hx
  | succ f ih =>
    intro l
    induction l with
    | nil => intro seen x hx; simp [getAllTags_nil] at hx
    | cons t rest ihl =>
      intro seen x hx
      rw [getAllTags_succ] at hx
      by_cases ht : t ∈ seen
      · rw [dfsList_cons_mem h _ t rest seen ht] at hx
        exact (ihl seen x hx).mono_roots (fun y hy => List.mem_cons_of_mem _ hy)
      · rw [dfsList_cons_not_mem h _ t rest seen ht] at hx
        have hroot : RA h seen (t :: rest) t := RA.root (List.mem_cons_self _ _) ht
        rcases List.mem_cons.1 hx with rfl | hx
        · exact hroot
        rcases List.mem_append.1 hx with hc | hr
        · exact hroot.through (ih _ _ x hc)
        · have hsub : ∀ y ∈ seen, y ∈ (getAllTags h f (tagRec h t).tags (t :: seen)).2 :=
            fun y hy => getAllTags_seen_subset h f _ _ y (List.mem_cons_of_mem _ hy)
          exact ((ihl _ x hr).anti_seen hsub).mono_roots
            (fun y hy => List.mem_cons_of_mem _ hy)

theorem realCount_anti (h : Heap) {seen seen' : List TagId}
    (hs : ∀ y ∈ seen, y ∈ seen') : realCount h seen' ≤ realCount h seen := by
  apply Finset.card_le_card
  intro x hx
  rcases Finset.mem_filter.1 hx with ⟨hr, hn⟩
  exact Finset.mem_filter.2 ⟨hr, fun hc => hn (hs _ hc)⟩

theorem realCount_cons (h : Heap) {t : TagId} {seen : List TagId}
    (htl : t < h.length) (hts : t ∉ seen) :
    realCount h (t :: seen) + 1 = realCount h seen := by
  have hset : (Finset.range h.length).filter (fun x => x ∉ (t :: seen)) =
      ((Finset.range h.length).filter (fun x => x ∉ seen)).erase t := by
    ext x
    simp only [Finset.mem_filter, Finset.mem_erase, Finset.mem_range, List.mem_cons,
      not_or]
    tauto
  rw [realCount, hset]
  exact Finset.card_erase_add_one
    (Finset.mem_filter.2 ⟨Finset.mem_range.2 htl, hts⟩)

theorem tagRec_default_of_ge {h : Heap} {t : TagId} (ht : h.length ≤ t) :
    tagRec h t = default := by
  rw [tagRec, List.getD_eq_default]
  exact ht

theorem getAllTags_closure (h : Heap) :
    ∀ (fuel : Nat) (l seen : List TagId), realCount h seen + 1 ≤ fuel →
      (∀ t ∈ l, t ∈ (getAllTags h fuel l seen).2) ∧
      (∀ x, x ∈ (getAllTags h fuel l seen).2 → x ∉ seen →
        ∀ u ∈ (tagRec h x).tags, u ∈ (getAllTags h fuel l seen).2) := by
  intro fuel
  induction fuel with
  | zero => intro l seen hf; omega
  | succ f ih =>
    intro l
    induction l with
    | nil =>
      intro seen hf
      rw [getAllTags_nil]
      exact ⟨fun t ht => absurd ht (List.not_mem_nil t),
        fun x hx hnx _ _ => absurd hx hnx⟩
    | cons t rest ihl =>
      intro seen hf
      rw [getAllTags_succ]
      by_cases ht : t ∈ seen
      · rw [dfsList_cons_mem h _ t rest seen ht]
        have := ihl seen hf
        rw [getAllTags_succ] at this
        refine ⟨fun y hy => ?_, this.2⟩
        rcases List.mem_cons.1 hy with rfl | hy
        · have hmem := getAllTags_seen_subset h (f + 1) rest seen y ht
          rwa [getAllTags_succ] at hmem
        · exact this.1 y hy
      · rw [dfsList_cons_not_mem h _ t rest seen ht]
        -- the child call and its facts
        have hchild :
            (∀ u ∈ (tagRec h t).tags,
              u ∈ (getAllTags h f (tagRec h t).tags (t :: seen)).2) ∧
            (∀ x, x ∈ (getAllTags h f (tagRec h t).tags (t :: seen)).2 →
              x ∉ (t :: seen) → ∀ u ∈ (tagRec h x).tags,
                u ∈ (getAllTags h f (tagRec h t).tags (t :: seen)).2) := by
          by_cases htl : t < h.length
          · have hf' : realCount h (t :: seen) + 1 ≤ f := by
              rw [← realCount_cons h htl ht] at hf
              omega
            exact ih _ _ hf'
          · have hdef : tagRec h t = default := tagRec_default_of_ge (Nat.le_of_not_lt htl)
            have htags : (tagRec h t).tags = [] := by rw [hdef]; rfl
            rw [htags, getAllTags_nil]
            refine ⟨fun u hu => ?_, fun x hx hnx u hu => ?_⟩
            · exact absurd hu (List.not_mem_nil u)
            · exact absurd hx hnx
        set c := getAllTags h f (tagRec h t).tags (t :: seen) with hc
        have hfr : realCount h c.2 + 1 ≤ f + 1 := by
          have h1 : ∀ y ∈ seen, y ∈ c.2 :=
            fun y hy => getAllTags_seen_subset h f _ _ y (List.mem_cons_of_mem _ hy)
          have := realCount_anti h h1
          omega
        have hrest := ihl c.2 hfr
        rw [getAllTags_succ] at hrest
        set r := dfsList h (getAllTags h f) rest c.2 with hr
        have hc2r : ∀ y ∈ c.2, y ∈ r.2 := by
          intro y hy
          have := getAllTags_seen_subset h (f + 1) rest c.2 y hy
          rwa [getAllTags_succ] at this
        have htc2 : t ∈ c.2 :=
          getAllTags_seen_subset h f _ _ t (List.mem_cons_self _ _)
        refine ⟨fun y hy => ?_, fun x hx hnx u hu => ?_⟩
        · rcases List.mem_cons.1 hy with rfl | hy
          · exact hc2r _ htc2
          · exact hrest.1 y hy
        · show u ∈ r.2
          by_cases hxc : x ∈ c.2
          · by_cases hxt : x = t
            · subst hxt
              exact hc2r _ (hchild.1 u hu)
            · have : x ∉ (t :: seen) := by
                intro hmem
                rcases List.mem_cons.1 hmem with rfl | hmem
                · exact hxt rfl
                · exact hnx hmem
              exact hc2r _ (hchild.2 x hxc this u hu)
          · exact hrest.2 x hx hxc u hu

theorem getAllTags_complete (h : Heap) (fuel : Nat) (l seen : List TagId)
    (hf : realCount h seen + 1 ≤ fuel) :
    ∀ x, RA h seen l x → x ∈ (getAllTags h fuel l seen).2 := by
  intro x hx
  induction hx with
  | root hm _ => exact (getAllTags_closure h fuel l seen hf).1 _ hm
  | child hRA hm _ ih =>
    exact (getAllTags_closure h fuel l seen hf).2 _ ih hRA.not_mem_seen _ hm

theorem realCount_nil (h : Heap) : realCount h [] = h.length := by
  rw [realCount]
  have : (Finset.range h.length).filter (fun x => x ∉ ([] : List TagId)) =
      Finset.range h.length := by
    apply Finset.filter_true_of_mem
    intro x _
    exact List.not_mem_nil x
  rw [this, Finset.card_range]

theorem mem_getAllTags_iff (h : Heap) (l : List TagId) (x : TagId) :
    x ∈ (getAllTags h (h.length + 1) l []).1 ↔ RA h [] l x := by
  constructor
  · exact getAllTags_sound h _ _ _ x
  · intro hx
    have hf : realCount h [] + 1 ≤ h.length + 1 := by rw [realCount_nil]
    have := getAllTags_complete h (h.length + 1) l [] hf x hx
    rcases (getAllTags_mem_seen_iff h _ _ _ x).1 this with hs | ho
    · exact absurd hs (List.not_mem_nil x)
    · exact ho

theorem mem_uniqAux : ∀ (l seen : List TagId) (x : TagId),
    x ∈ uniqAux seen l ↔ x ∈ l ∧ x ∉ seen := by
  intro l
  induction l with
  | nil => intro seen x; simp [uniqAux]
  | cons t rest ih =>
    intro seen x
    by_cases ht : t ∈ seen
    · rw [uniqAux, if_pos ht, ih]
      constructor
      · rintro ⟨hx, hns⟩
        exact ⟨List.mem_cons_of_mem _ hx, hns⟩
      · rintro ⟨hx, hns⟩
        rcases List.mem_cons.1 hx with rfl | hx
        · exact absurd ht hns
        · exact ⟨hx, hns⟩
    · rw [uniqAux, if_neg ht]
      constructor
      · intro hx
        rcases List.mem_cons.1 hx with rfl | hx
        · exact ⟨List.mem_cons_self _ _, ht⟩
        · rcases (ih _ x).1 hx with ⟨hm, hns⟩
          exact ⟨List.mem_cons_of_mem _ hm,
            fun hc => hns (List.mem_cons_of_mem _ hc)⟩
      · rintro ⟨hx, hns⟩
        rcases List.mem_cons.1 hx with rfl | hx
        · exact List.mem_cons_self _ _
        · by_cases hxt : x = t
          · subst hxt; exact List.mem_cons_self _ _
          · exact List.mem_cons_of_mem _
              ((ih _ x).2 ⟨hx, by
                intro hc
                rcases List.mem_cons.1 hc with h1 | h1
                · exact hxt h1
                · exact hns h1⟩)

theorem nodup_uniqAux : ∀ (l seen : List TagId), (uniqAux seen l).Nodup := by
  intro l
  induction l with
  | nil => intro seen; simp [uniqAux]
  | cons t rest ih =>
    intro seen
    by_cases ht : t ∈ seen
    · rw [uniqAux, if_pos ht]; exact ih seen
    · rw [uniqAux, if_neg ht]
      refine List.Nodup.cons ?_ (ih _)
      intro hc
      exact ((mem_uniqAux rest (t :: seen) t).1 hc).2 (List.mem_cons_self _ _)

theorem mem_uniq (l : List TagId) (x : TagId) : x ∈ uniq l ↔ x ∈ l := by
  rw [uniq, mem_uniqAux]
  simp

theorem nodup_uniq (l : List TagId) : (uniq l).Nodup := nodup_uniqAux l []

theorem mem_sort (h : Heap) (l : List TagId) (x : TagId) :
    x ∈ sort h l ↔ RA h [] l x := by
  rw [sort, List.mem_insertionSort, mem_uniq, mem_getAllTags_iff]

theorem nodup_sort (h : Heap) (l : List TagId) : (sort h l).Nodup := by
  rw [sort]
  exact ((List.perm_insertionSort _ _).nodup_iff).2 (nodup_uniq _)

theorem sorted_sort (h : Heap) (l : List TagId) :
    (sort h l).Sorted (· ≤ ·) := by
  rw [sort]
  exact List.sorted_insertionSort _ _

theorem sort_eq_of_RA_iff (h : Heap) {l₁ l₂ : List TagId}
    (hiff : ∀ x, RA h [] l₁ x ↔ RA h [] l₂ x) : sort h l₁ = sort h l₂ := by
  apply List.eq_of_perm_of_sorted ?_ (sorted_sort h l₁) (sorted_sort h l₂)
  refine (List.perm_ext_iff_of_nodup (nodup_sort h l₁) (nodup_sort h l₂)).2 ?_
  intro x
  rw [mem_sort, mem_sort]
  exact hiff x

theorem RA_iff_of_mem_iff (h : Heap) {l₁ l₂ : List TagId}
    (hm : ∀ x, x ∈ l₁ ↔ x ∈ l₂) (x : TagId) :
    RA h [] l₁ x ↔ RA h [] l₂ x :=
  ⟨RA.mono_roots (fun y hy => (hm y).1 hy), RA.mono_roots (fun y hy => (hm y).2 hy)⟩

theorem sort_eq_of_mem_iff (h : Heap) {l₁ l₂ : List TagId}
    (hm : ∀ x, x ∈ l₁ ↔ x ∈ l₂) : sort h l₁ = sort h l₂ :=
  sort_eq_of_RA_iff h (RA_iff_of_mem_iff h hm)

theorem mem_sort_of_mem (h : Heap) {l : List TagId} {t : TagId} (ht : t ∈ l) :
    t ∈ sort h l :=
  (mem_sort h l t).2 (RA.root ht (List.not_mem_nil t))

theorem sort_ne_nil_of_mem (h : Heap) {l : List TagId} {t : TagId} (ht : t ∈ l) :
    sort h l ≠ [] :=
  fun hc => by simpa [hc] using mem_sort_of_mem h ht

theorem isSubSlice_self {l : List TagId} (hl : l ≠ []) :
    isSubSlice l l = some true := by
  match l with
  | [] => exact absurd rfl hl
  | a :: rest =>
    rw [isSubSlice]
    rw [if_neg (by omega)]
    rw [subSliceFrom, if_pos rfl]
    simp [List.take_length]

theorem subSliceFrom_iff_infix {bt : List TagId} {first : TagId} :
    ∀ {a : List TagId}, a.Nodup →
      (subSliceFrom (first :: bt) first a = true ↔ (first :: bt) <:+: a) := by
  intro a
  induction a with
  | nil =>
    intro _
    rw [subSliceFrom]
    simp
  | cons a0 rest ih =>
    intro hnd
    by_cases h0 : a0 = first
    · subst h0
      rw [subSliceFrom, if_pos rfl]
      simp only [decide_eq_true_eq]
      constructor
      · intro htake
        exact ((List.prefix_iff_eq_take).2 htake.symm).isInfix
      · intro hinf
        rcases List.infix_cons_iff.1 hinf with hpre | hinf
        · exact ((List.prefix_iff_eq_take).1 hpre).symm
        · exfalso
          have hmem : a0 ∈ rest := hinf.subset (List.mem_cons_self _ _)
          exact (List.nodup_cons.1 hnd).1 hmem
    · rw [subSliceFrom, if_neg h0]
      rw [ih (List.nodup_cons.1 hnd).2]
      constructor
      · intro hinf
        exact hinf.trans (List.suffix_cons a0 rest).isInfix
      · intro hinf
        rcases List.infix_cons_iff.1 hinf with hpre | hinf
        · exfalso
          exact h0 (List.cons_prefix_cons.1 hpre).1.symm
        · exact hinf

theorem isSubSlice_eq_some_true_iff {a b : List TagId} (ha : a.Nodup)
    (hb : b ≠ []) : isSubSlice a b = some true ↔ b <:+: a := by
  match b with
  | [] => exact absurd rfl hb
  | first :: bt =>
    rw [isSubSlice]
    by_cases hlen : (first :: bt).length > a.length
    · rw [if_pos hlen]
      constructor
      · intro hc; exact absurd hc (by simp)
      · intro hinf
        exact absurd hinf.length_le (by omega)
    · rw [if_neg hlen]
      rw [Option.some_inj]
      exact subSliceFrom_iff_infix ha

theorem joinSep_cons (m : String) {l : List String} (hl : l ≠ []) :
    joinSep (m :: l) = m ++ ": " ++ joinSep l := by
  match l with
  | [] => exact absurd rfl hl
  | x :: rest => rfl

theorem msgConcat_eq_empty (h : Heap) :
    ∀ l : List TagId, (∀ x ∈ l, (tagRec h x).msg = "") → msgConcat h l = "" := by
  intro l
  induction l with
  | nil => intro _; rfl
  | cons t rest ih =>
    intro hall
    match rest with
    | [] => exact hall t (List.mem_cons_self _ _)
    | u :: rs =>
      have hmc : msgConcat h (t :: u :: rs) =
          (if (tagRec h t).msg ≠ "" then (tagRec h t).msg ++ ": " else "") ++
            msgConcat h (u :: rs) := rfl
      rw [hmc, if_neg (by simpa using hall t (List.mem_cons_self _ _))]
      rw [String.empty_append]
      exact ih (fun x hx => hall x (List.mem_cons_of_mem _ hx))

theorem getLast?_all_empty :
    ∀ (ms : List String), ms ≠ [] → (∀ m ∈ ms, m = "") → ms.getLast? = some "" := by
  intro ms
  induction ms with
  | nil => intro hc; exact absurd rfl hc
  | cons m rest ih =>
    intro _ hall
    match rest with
    | [] =>
      rw [hall m (List.mem_cons_self _ _)]
      rfl
    | u :: rs =>
      rw [List.getLast?_cons_cons]
      exact ih (by simp) (fun x hx => hall x (List.mem_cons_of_mem _ hx))

theorem msgConcat_characterization (h : Heap) :
    ∀ l : List TagId,
      msgConcat h l =
        joinSep ((l.map fun t => (tagRec h t).msg).filter fun m => decide (m ≠ "")) ++
          (if (l.map fun t => (tagRec h t).msg).getLast? = some "" ∧
              ∃ t ∈ l, (tagRec h t).msg ≠ "" then ": " else "") := by
  intro l
  induction l with
  | nil => simp [msgConcat, joinSep]
  | cons t rest ih =>
    match rest with
    | [] =>
      by_cases hm : (tagRec h t).msg = ""
      · rw [msgConcat]
        simp [hm, joinSep]
      · rw [msgConcat]
        simp only [List.map_cons, List.map_nil, List.filter, decide_eq_true_eq, hm,
          decide_True, List.getLast?_singleton]
        rw [if_neg (by simp [hm])]
        simp [joinSep, hm]
    | u :: rs =>
      have hmc : msgConcat h (t :: u :: rs) =
          (if (tagRec h t).msg ≠ "" then (tagRec h t).msg ++ ": " else "") ++
            msgConcat h (u :: rs) := rfl
      by_cases hm : (tagRec h t).msg = ""
      · rw [hmc, if_neg (by simpa using hm), String.empty_append, ih]
        have hfil : ((t :: u :: rs).map fun x => (tagRec h x).msg).filter
              (fun m => decide (m ≠ "")) =
            ((u :: rs).map fun x => (tagRec h x).msg).filter (fun m => decide (m ≠ "")) := by
          simp [List.filter, hm]
        have hlast : ((t :: u :: rs).map fun x => (tagRec h x).msg).getLast? =
            ((u :: rs).map fun x => (tagRec h x).msg).getLast? := by
          simp only [List.map_cons]
          rw [List.getLast?_cons_cons]
        have hex : (∃ x ∈ t :: u :: rs, (tagRec h x).msg ≠ "") ↔
            (∃ x ∈ u :: rs, (tagRec h x).msg ≠ "") := by
          constructor
          · rintro ⟨x, hx, hne⟩
            rcases List.mem_cons.1 hx with rfl | hx
            · exact absurd hm hne
            · exact ⟨x, hx, hne⟩
          · rintro ⟨x, hx, hne⟩
            exact ⟨x, List.mem_cons_of_mem _ hx, hne⟩
        rw [hfil, hlast]
        congr 1
        simp only [hex]
      · rw [hmc, if_pos (by simpa using hm), ih]
        have hfil : ((t :: u :: rs).map fun x => (tagRec h x).msg).filter
              (fun m => decide (m ≠ "")) =
            (tagRec h t).msg ::
              ((u :: rs).map fun x => (tagRec h x).msg).filter (fun m => decide (m ≠ "")) := by
          simp [List.filter, hm]
        rw [hfil]
        by_cases hall : ∀ x ∈ u :: rs, (tagRec h x).msg = ""
        · have hfil2 : ((u :: rs).map fun x => (tagRec h x).msg).filter
              (fun m => decide (m ≠ "")) = [] := by
            rw [List.filter_eq_nil_iff]
            intro a ha
            rcases List.mem_map.1 ha with ⟨x, hx, rfl⟩
            simpa using hall x hx
          have hif2 : ¬ (((u :: rs).map fun x => (tagRec h x).msg).getLast? = some "" ∧
              ∃ x ∈ u :: rs, (tagRec h x).msg ≠ "") := by
            rintro ⟨_, x, hx, hne⟩
            exact hne (hall x hx)
          have hif1 : (((t :: u :: rs).map fun x => (tagRec h x).msg).getLast? = some "" ∧
              ∃ x ∈ t :: u :: rs, (tagRec h x).msg ≠ "") := by
            constructor
            · have hmap : ∀ m ∈ (u :: rs).map (fun x => (tagRec h x).msg), m = "" := by
                intro m hmm
                rcases List.mem_map.1 hmm with ⟨x, hx, rfl⟩
                exact hall x hx
              simp only [List.map_cons]
              rw [List.getLast?_cons_cons]
              exact getLast?_all_empty _ (by simp) (by simpa using hmap)
            · exact ⟨t, List.mem_cons_self _ _, hm⟩
          rw [hfil2, if_neg hif2, if_pos hif1]
          simp [joinSep]
        · have hex2 : ∃ x ∈ u :: rs, (tagRec h x).msg ≠ "" := by
            push_neg at hall
            exact hall
          have hfil3 : ((u :: rs).map fun x => (tagRec h x).msg).filter
              (fun m => decide (m ≠ "")) ≠ [] := by
            rcases hex2 with ⟨x, hx, hne⟩
            intro hc
            have : (tagRec h x).msg ∈ ((u :: rs).map fun y => (tagRec h y).msg).filter
                (fun m => decide (m ≠ "")) :=
              List.mem_filter.2 ⟨List.mem_map.2 ⟨x, hx, rfl⟩, by simpa using hne⟩
            rw [hc] at this
            exact absurd this (List.not_mem_nil _)
          rw [joinSep_cons _ hfil3]
          have hlast : ((t :: u :: rs).map fun x => (tagRec h x).msg).getLast? =
              ((u :: rs).map fun x => (tagRec h x).msg).getLast? := by
            simp only [List.map_cons]
            rw [List.getLast?_cons_cons]
          have hexiff : (∃ x ∈ t :: u :: rs, (tagRec h x).msg ≠ "") := 
            ⟨t, List.mem_cons_self _ _, hm⟩
          have hcond : (((t :: u :: rs).map fun x => (tagRec h x).msg).getLast? = some "" ∧
                ∃ x ∈ t :: u :: rs, (tagRec h x).msg ≠ "") ↔
              (((u :: rs).map fun x => (tagRec h x).msg).getLast? = some "" ∧
                ∃ x ∈ u :: rs, (tagRec h x).msg ≠ "") := by
            rw [hlast]
            constructor
            · rintro ⟨h1, _⟩
              exact ⟨h1, hex2⟩
            · rintro ⟨h1, _⟩
              exact ⟨h1, hexiff⟩
          rw [if_congr hcond rfl rfl]
          simp [String.append_assoc]

theorem tagRec_set_self {h : Heap} {i : TagId} (hi : i < h.length) (v : Tag) :
    tagRec (h.set i v) i = v := by
  rw [tagRec, List.getD_eq_getElem?_getD, List.getElem?_set_self',
    List.getElem?_eq_getElem hi]
  rfl

theorem lt_length_of_self_mem {h : Heap} {A : TagId}
    (hA : A ∈ (tagRec h A).tags) : A < h.length := by
  by_contra hc
  rw [tagRec_default_of_ge (Nat.le_of_not_lt hc)] at hA
  have hd : (default : Tag).tags = [] := rfl
  rw [hd] at hA
  exact absurd hA (List.not_mem_nil A)

theorem RA_include_union_iff (h : Heap) {A B : TagId}
    (hself : A ∈ (tagRec h A).tags) (x : TagId) :
    RA h [] ((tagRec h A).tags ++ [B]) x ↔ RA h [] [B, A] x := by
  constructor
  · intro hx
    induction hx with
    | root hm hs =>
      rcases List.mem_append.1 hm with hm | hm
      · exact RA.child (RA.root (by simp) (List.not_mem_nil A)) hm (List.not_mem_nil _)
      · rcases List.mem_cons.1 hm with rfl | hm
        · exact RA.root (by simp) hs
        · exact absurd hm (List.not_mem_nil _)
    | child _ hm hs ih => exact RA.child ih hm hs
  · intro hx
    induction hx with
    | root hm hs =>
      rcases List.mem_cons.1 hm with rfl | hm
      · exact RA.root (List.mem_append_right _ (by simp)) hs
      · rcases List.mem_cons.1 hm with rfl | hm
        · exact RA.root (List.mem_append_left _ hself) hs
        · exact absurd hm (List.not_mem_nil _)
    | child _ hm hs ih => exact RA.child ih hm hs

theorem wrapChain_cons (h : Heap) (err : Err) (t : TagId) (rest : List TagId) :
    wrapChain h err (t :: rest) =
      wrapChain (h ++ [⟨some err, (tagRec h t).msg, (tagRec h t).tags, false⟩])
        (Err.tag h.length) rest := rfl

theorem wrapChain_heap_extends :
    ∀ (ts : List TagId) (h : Heap) (err : Err),
      ∃ ext : Heap, (wrapChain h err ts).1 = h ++ ext := by
  intro ts
  induction ts with
  | nil => intro h err; exact ⟨[], (List.append_nil h).symm⟩
  | cons t rest ih =>
    intro h err
    rw [wrapChain_cons]
    obtain ⟨ext, hext⟩ := ih
      (h ++ [⟨some err, (tagRec h t).msg, (tagRec h t).tags, false⟩]) (Err.tag h.length)
    exact ⟨[⟨some err, (tagRec h t).msg, (tagRec h t).tags, false⟩] ++ ext,
      by rw [hext, List.append_assoc]⟩

theorem tagRec_append_middle (h : Heap) (w : Tag) (ext : Heap) :
    tagRec (h ++ [w] ++ ext) h.length = w := by
  rw [tagRec, List.append_assoc,
    List.getD_append_right h ([w] ++ ext) default h.length (le_refl _)]
  simp

theorem iterUnwrap_wrapChain :
    ∀ (ts : List TagId) (h : Heap) (err : Err),
      iterUnwrap (wrapChain h err ts).1 ts.length (wrapChain h err ts).2 = some err := by
  intro ts
  induction ts with
  | nil => intro h err; rfl
  | cons t rest ih =>
    intro h err
    rw [wrapChain_cons, List.length_cons]
    set w : Tag := (⟨some err, (tagRec h t).msg, (tagRec h t).tags, false⟩ : Tag) with hw
    rw [iterUnwrap]
    rw [ih (h ++ [w]) (Err.tag h.length)]
    obtain ⟨ext, hext⟩ := wrapChain_heap_extends rest (h ++ [w]) (Err.tag h.length)
    rw [Option.some_bind, unwrapErr, Tag.Unwrap, hext, tagRec_append_middle]

/-- C1 (amended): the Is hook of a Tag subject against a Tag pattern
decides contiguous-run containment, not order-independent subset
containment: for a subject with duplicate-free canonical members and a
pattern with nonempty members, Is answers true exactly when the members
sequence of the pattern occurs as a contiguous run inside the members
sequence of the subject.  This validates the concrete examples of the
claim (an error tagged with Union(A, B) matches A and matches the union,
an error tagged with A alone does not match the union) but refutes the
general subset-containment contract, see the counterexample. -/
theorem is_matches_contiguous_run (subject pattern : Tag)
    (ha : subject.tags.Nodup) (hb : pattern.tags ≠ []) :
    Tag.Is subject pattern = some true ↔ pattern.tags <:+: subject.tags :=
  isSubSlice_eq_some_true_iff ha hb

/-- C1 counterexample: in the heap with three atomic tags a, b, c, the
tagged error carrying all three has canonical members 0, 1, 2 and the
union of the first and third has canonical members 0, 2; every member of
the pattern occurs among the members of the subject, yet Is answers false,
so the claimed order-independent subset containment does not hold. -/
theorem is_subset_containment_fails :
    WithTags hABC (some (.base "e")) [0, 1, 2] =
      some ⟨some (.base "e"), "", [0, 1, 2], false⟩ ∧
    UnionTag hABC 0 [2] = ⟨none, "", [0, 2], false⟩ ∧
    (∀ x ∈ ([0, 2] : List TagId), x ∈ ([0, 1, 2] : List TagId)) ∧
    Tag.Is ⟨some (.base "e"), "", [0, 1, 2], false⟩ ⟨none, "", [0, 2], false⟩ =
      some false := by
  decide

/-- Witness for the amended C1 at a concrete input: the union-tagged error
with members 0, 1 matched against the atomic pattern with members 0. -/
theorem is_matches_contiguous_run_witness :
    (([0, 1] : List TagId).Nodup ∧ ([0] : List TagId) ≠ []) ∧
    Tag.Is ⟨some (.base "e"), "", [0, 1], false⟩ ⟨none, "a", [0], false⟩ = some true :=
  ⟨⟨by decide, by decide⟩,
    (is_matches_contiguous_run ⟨some (.base "e"), "", [0, 1], false⟩
      ⟨none, "a", [0], false⟩ (by decide) (by decide)).mpr (by decide)⟩

/-- C2 (amended): union identity is invariant under the order of the
argument tags: two unions over argument lists with the same member set
produce value-equal Tags, the same canonical members sequence and the same
derived message.  The nesting half of the claim fails, because flattening
keeps the inner union itself as a member, see the counterexample. -/
theorem union_order_invariant (h : Heap) (a b : TagId) (as bs : List TagId)
    (hm : ∀ x, x ∈ a :: as ↔ x ∈ b :: bs) :
    UnionTag h a as = UnionTag h b bs ∧
    Tag.message h (UnionTag h a as) = Tag.message h (UnionTag h b bs) := by
  have hs : sort h (as ++ [a]) = sort h (bs ++ [b]) := by
    apply sort_eq_of_mem_iff
    intro x
    have h1 : x ∈ as ++ [a] ↔ x ∈ a :: as := by simp [or_comm]
    have h2 : x ∈ bs ++ [b] ↔ x ∈ b :: bs := by simp [or_comm]
    rw [h1, h2]
    exact hm x
  have heq : UnionTag h a as = UnionTag h b bs := by
    rw [UnionTag, UnionTag, hs]
  exact ⟨heq, by rw [heq]⟩

/-- C2 counterexample: index 3 of the heap holds the union of the atomic
tags 0 and 1; the nested union Union(Union(a, b), c) keeps the inner union
as a member, so its canonical members are 0, 1, 2, 3 while the flat
Union(a, b, c) has members 0, 1, 2, and the derived messages differ as
well (the message of the nested union even ends in a dangling separator),
refuting value-equality of unions under nesting. -/
theorem union_nesting_changes_members :
    tagRec hABCU 3 = UnionTag hABC 0 [1] ∧
    UnionTag hABCU 3 [2] = ⟨none, "", [0, 1, 2, 3], false⟩ ∧
    UnionTag hABCU 0 [1, 2] = ⟨none, "", [0, 1, 2], false⟩ ∧
    Tag.message hABCU (UnionTag hABCU 3 [2]) = "a: b: c: " ∧
    Tag.message hABCU (UnionTag hABCU 0 [1, 2]) = "a: b: c" ∧
    UnionTag hABCU 3 [2] ≠ UnionTag hABCU 0 [1, 2] := by
  decide

/-- Witness for the amended C2 at a concrete input: the two argument
orders of the union of the atomic tags 0 and 1. -/
theorem union_order_invariant_witness :
    (∀ x, x ∈ ([0, 1] : List TagId) ↔ x ∈ ([1, 0] : List TagId)) ∧
    UnionTag hAB 0 [1] = UnionTag hAB 1 [0] := by
  have hm : ∀ x, x ∈ ([0, 1] : List TagId) ↔ x ∈ ([1, 0] : List TagId) := by
    intro x
    simp only [List.mem_cons, List.not_mem_nil, or_false]
    tauto
  exact ⟨hm, (union_order_invariant hAB 0 1 [1] [0] hm).1⟩

/-- C3 (code bug): wrapping with a message-less tag and rendering through
the Error method does not omit the empty own message together with its
separator: the rendered string is the separator followed by the cause
message, not the cause message itself.  The heap is the one produced by
NewTag with no message, the cause a plain error. -/
theorem error_empty_message_not_omitted :
    (NewTag [] []).1 = [⟨none, "", [0], false⟩] ∧
    tagWrap (tagRec [⟨none, "", [0], false⟩] 0) (some (.base "some message")) =
      some ⟨some (.base "some message"), "", [0], false⟩ ∧
    Tag.Error [⟨none, "", [0], false⟩] 1
      ⟨some (.base "some message"), "", [0], false⟩ = ": some message" ∧
    errError [⟨none, "", [0], false⟩] 1 (.base "some message") = "some message" ∧
    (": some message" : String) ≠ "some message" := by
  decide

/-- C4 (amended): when the message is not explicit, the derived message is
the nonempty member messages in canonical order joined by the separator,
followed by a dangling separator exactly when the last member in canonical
order has an empty message while some earlier member has a nonempty one;
the claim that the result never ends in a separator fails in that case,
see the counterexample. -/
theorem message_characterization (h : Heap) (e : Tag)
    (hov : e.msgOverride = false) :
    Tag.message h e =
      joinSep ((e.tags.map fun t => (tagRec h t).msg).filter fun m => decide (m ≠ "")) ++
        (if (e.tags.map fun t => (tagRec h t).msg).getLast? = some "" ∧
            ∃ t ∈ e.tags, (tagRec h t).msg ≠ "" then ": " else "") := by
  rw [Tag.message, if_neg (by simp [hov])]
  exact msgConcat_characterization h e.tags

/-- C4 counterexample: the union of the atomic tag a (message a) and a
message-less atomic tag has canonical members 0, 1 with the empty message
last; the derived message keeps the separator written after a, so it ends
in a trailing separator, refuting the no-trailing-separator claim. -/
theorem message_trailing_separator :
    hAE = [⟨none, "a", [0], false⟩, ⟨none, "", [1], false⟩] ∧
    UnionTag hAE 0 [1] = ⟨none, "", [0, 1], false⟩ ∧
    Tag.message hAE (UnionTag hAE 0 [1]) = "a: " ∧
    ("a: " : String) ≠ "a" := by
  decide

/-- Witness for the amended C4 at a concrete input: the union of tag a and
the message-less tag, whose derived message is the joined nonempty
messages plus the dangling separator. -/
theorem message_characterization_witness :
    (UnionTag hAE 0 [1]).msgOverride = false ∧
    Tag.message hAE (UnionTag hAE 0 [1]) =
      joinSep (((UnionTag hAE 0 [1]).tags.map fun t => (tagRec hAE t).msg).filter
          fun m => decide (m ≠ "")) ++
        (if ((UnionTag hAE 0 [1]).tags.map fun t => (tagRec hAE t).msg).getLast? =
              some "" ∧
            ∃ t ∈ (UnionTag hAE 0 [1]).tags, (tagRec hAE t).msg ≠ "" then ": " else "") :=
  ⟨by decide, message_characterization hAE (UnionTag hAE 0 [1]) (by decide)⟩

/-- C5 (amended): wrapping a present error copies the cause, the display
message and the shared members sequence, but the messageIsExplicit flag of
the produced Tag is always false, not the flag of the receiver: the Go
struct literal omits the field, so it takes the zero value.  Consequently
the message of the produced tagged error is always the derived
concatenation over the members. -/
theorem tag_wrap_fields (h : Heap) (e : Tag) (c : Err) :
    tagWrap e (some c) = some ⟨some c, e.msg, e.tags, false⟩ ∧
    (tagWrap e (some c)).map (Tag.message h) = some (msgConcat h e.tags) :=
  ⟨rfl, rfl⟩

/-- C5 counterexample: a tagged error produced by TagWithMessage has the
explicit-message flag set; wrapping again with it as the receiver does not
copy that flag, so the result is not the Tag the claim predicts. -/
theorem tag_wrap_override_not_copied :
    Tag.TagWithMessage ⟨none, "class", [0], false⟩ (some (.base "x")) "custom" =
      some ⟨some (.base "x"), "custom", [0], true⟩ ∧
    tagWrap ⟨some (.base "x"), "custom", [0], true⟩ (some (.base "y")) ≠
      some ⟨some (.base "y"), "custom", [0], true⟩ := by
  decide

/-- C6: a pattern Tag with an empty tags slice is constructible through the
public interface as WithTags of a present error with zero tags, and the Is
hook of any subject against that pattern hits the read of element zero of
the empty slice inside isSubSlice: the model returns none, marking the
runtime failure, instead of a boolean. -/
theorem is_empty_pattern_diverges (h : Heap) (c : Err) (e : Tag) :
    WithTags h (some c) [] = some ⟨some c, "", [], false⟩ ∧
    Tag.Is e ⟨some c, "", [], false⟩ = none := by
  constructor
  · have hs : sort h [] = [] := by
      rw [sort, getAllTags_nil]
      rfl
    show some (⟨some c, "", sort h [], false⟩ : Tag) = some ⟨some c, "", [], false⟩
    rw [hs]
  · rfl

/-- C7 (amended): for a tag whose members contain the tag itself (true of
every atomic tag) and any second tag, Include replaces the members with the
canonicalization of the extended members list, keeping the identity, and
the updated tag is match-equal in both directions to the union of the two
tags built before the Include.  For a composite tag whose members do not
contain the tag itself, the match-equality half of the claim fails, see the
counterexample. -/
theorem include_matches_prior_union (h : Heap) (A B : TagId)
    (hself : A ∈ (tagRec h A).tags) :
    (tagRec (Tag.Include h A [B]) A).tags = sort h ((tagRec h A).tags ++ [B]) ∧
    Tag.Is (tagRec (Tag.Include h A [B]) A) (UnionTag h A [B]) = some true ∧
    Tag.Is (UnionTag h A [B]) (tagRec (Tag.Include h A [B]) A) = some true := by
  have hlt : A < h.length := lt_length_of_self_mem hself
  have htags : (tagRec (Tag.Include h A [B]) A).tags =
      sort h ((tagRec h A).tags ++ [B]) := by
    rw [Tag.Include, tagRec_set_self hlt]
  have hsorteq : sort h ((tagRec h A).tags ++ [B]) = sort h [B, A] :=
    sort_eq_of_RA_iff h (RA_include_union_iff h hself)
  have hunion : (UnionTag h A [B]).tags = sort h [B, A] := rfl
  have hne : sort h [B, A] ≠ [] :=
    sort_ne_nil_of_mem h (show A ∈ [B, A] by simp)
  refine ⟨htags, ?_, ?_⟩
  · rw [Tag.Is, htags, hunion, hsorteq]
    exact isSubSlice_self hne
  · rw [Tag.Is, htags, hunion, hsorteq]
    exact isSubSlice_self hne

/-- C7 counterexample: index 2 of the heap holds the composite
Union(x, y), whose members 0, 1 do not contain index 2, and index 3 holds
the atomic tag b.  After Include the composite has members 0, 1, 3, while
the union built beforehand has members 0, 1, 2, 3; matching fails in both
directions, refuting the claim for arbitrary tags. -/
theorem include_union_mismatch_for_composite :
    tagRec hXYUB 2 = UnionTag hXY 0 [1] ∧
    (UnionTag hXYUB 2 [3]).tags = [0, 1, 2, 3] ∧
    (tagRec (Tag.Include hXYUB 2 [3]) 2).tags = [0, 1, 3] ∧
    Tag.Is (tagRec (Tag.Include hXYUB 2 [3]) 2) (UnionTag hXYUB 2 [3]) = some false ∧
    Tag.Is (UnionTag hXYUB 2 [3]) (tagRec (Tag.Include hXYUB 2 [3]) 2) = some false := by
  decide

/-- Witness for the amended C7 at a concrete input: the atomic tag 0
extended with the atomic tag 1 on the two-tag heap. -/
theorem include_matches_prior_union_witness :
    0 ∈ (tagRec hAB 0).tags ∧
    Tag.Is (tagRec (Tag.Include hAB 0 [1]) 0) (UnionTag hAB 0 [1]) = some true :=
  ⟨by decide, (include_matches_prior_union hAB 0 1 (by decide)).2.1⟩

/-- C8 (amended): for a nonempty tag sequence, WithTags of a present error
equals wrapping that error with the union of the same tags, WithTags of an
absent error is absent, and two WithTags results over the same tag set in
different order are match-equal in both directions.  For the empty
sequence the claim fails: the produced pattern has empty members and
matching it does not return a boolean, see the counterexample. -/
theorem withTags_equiv_union_wrap (h : Heap) (c : Err) (t b : TagId)
    (ts bs : List TagId) (hm : ∀ x, x ∈ t :: ts ↔ x ∈ b :: bs) :
    WithTags h (some c) (t :: ts) = tagWrap (UnionTag h t ts) (some c) ∧
    WithTags h none (t :: ts) = none ∧
    Tag.Is ⟨some c, "", sort h (t :: ts), false⟩ ⟨some c, "", sort h (b :: bs), false⟩ =
      some true ∧
    Tag.Is ⟨some c, "", sort h (b :: bs), false⟩ ⟨some c, "", sort h (t :: ts), false⟩ =
      some true := by
  have hrot : sort h (t :: ts) = sort h (ts ++ [t]) := by
    apply sort_eq_of_mem_iff
    intro x
    simp [or_comm]
  have hsame : sort h (t :: ts) = sort h (b :: bs) := sort_eq_of_mem_iff h hm
  have hne : sort h (t :: ts) ≠ [] := sort_ne_nil_of_mem h (List.mem_cons_self t ts)
  refine ⟨?_, rfl, ?_, ?_⟩
  · show some (⟨some c, "", sort h (t :: ts), false⟩ : Tag) =
      some (⟨some c, "", sort h (ts ++ [t]), false⟩ : Tag)
    rw [hrot]
  · show isSubSlice (sort h (t :: ts)) (sort h (b :: bs)) = some true
    rw [← hsame]
    exact isSubSlice_self hne
  · show isSubSlice (sort h (b :: bs)) (sort h (t :: ts)) = some true
    rw [← hsame]
    exact isSubSlice_self hne

/-- C8 counterexample: with the empty tag sequence, WithTags of a present
error yields a tagged error with empty members, and matching two such
results (the same tag set, trivially in either order) does not answer
true: the Is hook hits the empty-pattern read, so the match-equality
clause of the claim fails on the empty sequence. -/
theorem withTags_empty_not_match_equal :
    WithTags [] (some (.base "e")) [] = some ⟨some (.base "e"), "", [], false⟩ ∧
    Tag.Is ⟨some (.base "e"), "", [], false⟩ ⟨some (.base "e"), "", [], false⟩ = none := by
  decide

/-- Witness for the amended C8 at a concrete input: the two-tag heap with
the tag sequences 0, 1 and 1, 0. -/
theorem withTags_equiv_union_wrap_witness :
    (∀ x, x ∈ ([0, 1] : List TagId) ↔ x ∈ ([1, 0] : List TagId)) ∧
    WithTags hAB (some (.base "e")) [0, 1] =
      tagWrap (UnionTag hAB 0 [1]) (some (.base "e")) := by
  have hm : ∀ x, x ∈ ([0, 1] : List TagId) ↔ x ∈ ([1, 0] : List TagId) := by
    intro x
    simp only [List.mem_cons, List.not_mem_nil, or_false]
    tauto
  exact ⟨hm, (withTags_equiv_union_wrap hAB (.base "e") 0 1 [1] [0] hm).1⟩

/-- C9: wrapping an absent error yields absent, for the plain wrap and for
the wrap with a message override alike; no tagged error is created. -/
theorem wrap_nil_yields_nil (e : Tag) (m : String) :
    tagWrap e none = none ∧ Tag.TagWithMessage e none m = none :=
  ⟨rfl, rfl⟩

/-- C10: the Cause and Unwrap hooks of a wrapped error both return the
wrapped cause unchanged, and unwrapping a chain of tag layers once per
layer returns the original error unchanged. -/
theorem cause_preserved_through_wrapping (e : Tag) (c : Err) (h : Heap)
    (ts : List TagId) :
    (tagWrap e (some c)).bind Tag.Cause = some c ∧
    (tagWrap e (some c)).bind Tag.Unwrap = some c ∧
    iterUnwrap (wrapChain h c ts).1 ts.length (wrapChain h c ts).2 = some c :=
  ⟨rfl, rfl, iterUnwrap_wrapChain ts h c⟩
